import Mathlib

/-!
Shallow embedding of the core of the STAG library (graph.cpp and the CKNS
Gaussian KDE implementation) together with theorems settling the frozen
claims about it.  Real-valued code is embedded over `ℚ` where its semantics
is exact rational arithmetic, and over `ℝ` (relationally) where it uses the
transcendental functions `log` and `exp`.
-/

/-! ## CKNS parameter schedule (kde implementation, constructor) -/

/-- Embedding of `max_log_nmu = (StagInt) ceil(log2(n));` from the
`CKNSGaussianKDE` constructor.  `Nat.clog 2 n` is the ceiling of the base-2
logarithm of `n` for `n ≥ 1`. -/
def max_log_nmu (n : ℕ) : ℕ := Nat.clog 2 n

/-- Embedding of `num_log_nmu_iterations = ceil(max_log_nmu / 2);` from the
`CKNSGaussianKDE` constructor.  `max_log_nmu` is an integer, so the C++
division `max_log_nmu / 2` truncates and the surrounding `ceil` is the
identity: the computed value is the floor of `max_log_nmu / 2`. -/
def num_log_nmu_iterations (n : ℕ) : ℕ := max_log_nmu n / 2

/-- The number of log-levels as the spec describes it: the ceiling of
`log_nmu_max / 2`, which for natural numbers is `(log_nmu_max + 1) / 2`. -/
def num_log_nmu_iterations_spec (n : ℕ) : ℕ := (max_log_nmu n + 1) / 2

/-- The log-levels iterated by the constructor: `log_nmu = 2 * log_nmu_iter`
for `log_nmu_iter ∈ [0, num_log_nmu_iterations)`. -/
def ckns_log_levels (n : ℕ) : List ℕ :=
  (List.range (num_log_nmu_iterations n)).map (fun i => 2 * i)

/-- The log-levels scanned by `CKNSGaussianKDE::query`, from the largest
downwards: `log_nmu = 2 * log_nmu_iter` for `log_nmu_iter` running from
`num_log_nmu_iterations - 1` down to `0`. -/
def ckns_query_levels (n : ℕ) : List ℤ :=
  ((List.range (num_log_nmu_iterations n)).reverse).map (fun i => 2 * (i : ℤ))

/-! ## CKNS sampling probability (HashUnit constructor) -/

/-- Embedding of `ckns_p_sampling`:
`pow(2, -j) * pow(2, -log_nmu)`. -/
def ckns_p_sampling (j log_nmu : ℕ) : ℚ :=
  (2 : ℚ) ^ (-(j : ℤ)) * (2 : ℚ) ^ (-(log_nmu : ℤ))

/-- Model of one draw from `std::uniform_real_distribution<StagReal>
uniform_distribution(0.0, 1.1)` (HashUnit constructor): a unit uniform
variate `u ∈ [0, 1)` is scaled to the interval `[0, 1.1)`. -/
def hash_unit_draw (u : ℚ) : ℚ := 0 + (11 / 10 - 0) * u

/-- Embedding of the sampling decision in the `CKNSGaussianKDEHashUnit`
constructor: a data point is kept exactly when
`uniform_distribution(*get_global_rng()) <= p_sampling`, where the
distribution is over `[0, 1.1)`. -/
def hash_unit_samples_point (j log_nmu : ℕ) (u : ℚ) : Bool :=
  hash_unit_draw u ≤ ckns_p_sampling j log_nmu

/-- The sampling decision as the spec states it: the point is kept exactly
when a uniform draw over `[0, 1]` is at most `p(j, log_nmu)`. -/
def hash_unit_samples_point_spec (j log_nmu : ℕ) (u : ℚ) : Bool :=
  u ≤ ckns_p_sampling j log_nmu

/-! ## Claim theorems (first batch) -/

/-- C2: the CKNS constructor at data size `n = 5` computes
`max_log_nmu = ⌈log₂ 5⌉ = 3` but only `1` log-level iteration (the C++
integer division inside `ceil(max_log_nmu / 2)` truncates), building only
log-level `{0}`, while the claim requires `⌈3 / 2⌉ = 2` iterations with
log-levels `{0, 2}`. -/
theorem C2_num_iterations_eval :
    max_log_nmu 5 = 3 ∧
    num_log_nmu_iterations 5 = 1 ∧
    num_log_nmu_iterations_spec 5 = 2 ∧
    ckns_log_levels 5 = [0] := by
  have h : max_log_nmu 5 = 3 := by simp [max_log_nmu, Nat.clog]
  refine ⟨h, ?_, ?_, ?_⟩ <;>
    simp [num_log_nmu_iterations, num_log_nmu_iterations_spec, ckns_log_levels, h,
      List.range_succ]

/-- C3: in the HashUnit constructor at shell `j = 1`, log-level
`log_nmu = 0` (so `p = 1/2`), the unit uniform variate `u = 0.48` is scaled
by the distribution over `[0, 1.1)` to the draw `0.528`, which exceeds `p`:
the code does not sample the point, although the claim (a uniform draw over
`[0, 1]` at most `p`) would sample it.  The inclusion probability is
`p / 1.1`, not `p`. -/
theorem C3_sampling_eval :
    ckns_p_sampling 1 0 = 1 / 2 ∧
    hash_unit_samples_point 1 0 (48 / 100) = false ∧
    hash_unit_samples_point_spec 1 0 (48 / 100) = true := by
  have h : ckns_p_sampling 1 0 = 1 / 2 := by norm_num [ckns_p_sampling]
  refine ⟨h, ?_, ?_⟩ <;>
    simp [hash_unit_samples_point, hash_unit_samples_point_spec, hash_unit_draw, h] <;>
    norm_num

/-! ## CKNS query acceptance (CKNSGaussianKDE::query) -/

/-- Embedding of the acceptance test in `CKNSGaussianKDE::query`:
`log(this_mu_estimates[i]) >= (StagReal) log_nmu`, where `log` is the
natural logarithm. -/
def ckns_accepts (est : ℝ) (log_nmu : ℤ) : Prop :=
  Real.log est ≥ (log_nmu : ℝ)

/-- The acceptance test as the claim states it:
`ln(this_mu_estimate) ≥ log_nmu · ln 2`, equivalently
`this_mu_estimate ≥ 2 ^ log_nmu`. -/
def ckns_accepts_spec (est : ℝ) (log_nmu : ℤ) : Prop :=
  Real.log est ≥ (log_nmu : ℝ) * Real.log 2

/-- Relational embedding of the per-query result of `CKNSGaussianKDE::query`:
the log-levels are scanned in the given order (largest first); the first
accepted level has its median estimate divided by `n` returned; if no level
is accepted the result is the floor value `1 / n`.  The function `est` gives
the median estimate `this_mu_estimate` computed at each log-level. -/
def ckns_query_result (n : ℕ) (est : ℤ → ℝ) : List ℤ → ℝ → Prop
  | [], r => r = 1 / (n : ℝ)
  | l :: rest, r =>
      (ckns_accepts (est l) l ∧ r = est l / (n : ℝ)) ∨
      (¬ ckns_accepts (est l) l ∧ ckns_query_result n est rest r)

/-- The per-query result with the claim's acceptance test in place of the
code's. -/
def ckns_query_result_spec (n : ℕ) (est : ℤ → ℝ) : List ℤ → ℝ → Prop
  | [], r => r = 1 / (n : ℝ)
  | l :: rest, r =>
      (ckns_accepts_spec (est l) l ∧ r = est l / (n : ℝ)) ∨
      (¬ ckns_accepts_spec (est l) l ∧ ckns_query_result_spec n est rest r)

/-- Median estimates used in the C1 evaluation: the query sees the median
estimate 5 at log-level 2 and the median estimate 1/2 at log-level 0. -/
def est_c1 (l : ℤ) : ℚ := if l = 2 then 5 else 1 / 2

/-- C1: for `n = 16` data points the query scans log-levels `[2, 0]`.  With
median estimate 5 at level 2 and 1/2 at level 0, the code accepts neither
level (its test compares the natural logarithm of the estimate against
`log_nmu` directly, so level 2 requires `5 ≥ e² ≈ 7.39`) and returns the
floor value `1/16`; the claim's test `this_mu_estimate ≥ 2^log_nmu` accepts
level 2 (`5 ≥ 4`) and returns `5/16`. -/
theorem C1_acceptance_eval :
    ckns_query_levels 16 = [2, 0] ∧
    ckns_query_result 16 (fun l => (est_c1 l : ℝ)) [2, 0] (1 / 16) ∧
    ckns_query_result_spec 16 (fun l => (est_c1 l : ℝ)) [2, 0] (5 / 16) ∧
    (1 / 16 : ℝ) ≠ 5 / 16 := by
  have hlevels : ckns_query_levels 16 = [2, 0] := by
    have h : max_log_nmu 16 = 4 := by simp [max_log_nmu, Nat.clog]
    simp [ckns_query_levels, num_log_nmu_iterations, h, List.range_succ]
  have h5 : ¬ ckns_accepts ((est_c1 2 : ℚ) : ℝ) 2 := by
    have h2 : Real.log 5 < 2 := by
      rw [Real.log_lt_iff_lt_exp (by norm_num)]
      have hexp : Real.exp 2 = Real.exp 1 * Real.exp 1 := by
        rw [← Real.exp_add]; norm_num
      nlinarith [Real.exp_one_gt_d9, Real.exp_pos 1]
    simp only [ckns_accepts, est_c1, if_pos rfl]
    push_neg
    simpa using h2
  have hhalf : ¬ ckns_accepts ((est_c1 0 : ℚ) : ℝ) 0 := by
    have h0 : Real.log (1 / 2 : ℝ) < 0 := Real.log_neg (by norm_num) (by norm_num)
    simp only [ckns_accepts, est_c1]
    norm_num
    linarith
  have hspec5 : ckns_accepts_spec ((est_c1 2 : ℚ) : ℝ) 2 := by
    have h4 : (2 : ℝ) * Real.log 2 = Real.log 4 := by
      rw [show (4 : ℝ) = 2 ^ (2 : ℕ) by norm_num, Real.log_pow]
      norm_num
    have h45 : Real.log 4 ≤ Real.log 5 :=
      (Real.log_le_log_iff (by norm_num) (by norm_num)).mpr (by norm_num)
    simp only [ckns_accepts_spec, est_c1, if_pos rfl]
    push_cast
    linarith
  refine ⟨hlevels, ?_, ?_, by norm_num⟩
  · exact Or.inr ⟨h5, Or.inr ⟨hhalf, by norm_num [ckns_query_result]⟩⟩
  · exact Or.inl ⟨hspec5, by norm_num [est_c1]⟩

/-! ## Graph construction from a matrix (graph.cpp) -/

/-- Error kinds surfaced by the library: `std::invalid_argument` and
`std::domain_error`. -/
inductive StagError where
  | invalidArgument
  | domainError
  deriving DecidableEq

/-- Embedding of the scan in `adjacency_from_adj_or_lap` that looks for a
negative entry of the input matrix.  The scan visits the stored entries of
the sparse matrix; non-stored entries are zero, so it finds a negative
entry exactly when the matrix has one. -/
def found_negative_value {n : ℕ} (M : Fin n → Fin n → ℚ) : Prop :=
  ∃ i j, M i j < 0

instance found_negative_value_dec {n : ℕ} (M : Fin n → Fin n → ℚ) :
    Decidable (found_negative_value M) :=
  decidable_of_iff (∃ i j, M i j < 0) Iff.rfl

/-- Row sums of a matrix (`matrix * Eigen::VectorXd::Ones(matrix.cols())`). -/
def row_sum {n : ℕ} (M : Fin n → Fin n → ℚ) (i : Fin n) : ℚ := ∑ j, M i j

/-- The Laplacian branch of `adjacency_from_adj_or_lap`: the adjacency is
the negated input with each diagonal entry replaced by the row sum of the
input (`adjacency_matrix = -matrix` followed by
`adjacency_matrix.coeffRef(i, i) = self_loop_weights.coeff(i)`). -/
def lap_to_adj {n : ℕ} (M : Fin n → Fin n → ℚ) : Fin n → Fin n → ℚ :=
  fun i j => if i = j then row_sum M i else -M i j

/-- The matrix `adjacency_from_adj_or_lap` holds just before pruning:
the Laplacian reconstruction when a negative entry was found, the input
matrix itself otherwise. -/
def pre_adjacency {n : ℕ} (M : Fin n → Fin n → ℚ) : Fin n → Fin n → ℚ :=
  if found_negative_value M then lap_to_adj M else M

/-- Embedding of `adjacency_from_adj_or_lap` from graph.cpp, including the
final prune: only entries with `value > EPSILON` are kept, everything else
becomes zero. -/
def adjacency_from_adj_or_lap {n : ℕ} (eps : ℚ) (M : Fin n → Fin n → ℚ) :
    Fin n → Fin n → ℚ :=
  fun i j => if eps < pre_adjacency M i j then pre_adjacency M i j else 0

/-- Embedding of `initialise_degree_matrix_`: the degree of vertex `i` is
the row sum of the adjacency matrix plus the diagonal entry (a self-loop
counts twice towards the degree). -/
def degree_entry {n : ℕ} (A : Fin n → Fin n → ℚ) (i : Fin n) : ℚ :=
  row_sum A i + A i i

/-- Embedding of `initialise_laplacian_`: `L = D - A` with `D` the degree
matrix. -/
def laplacian {n : ℕ} (A : Fin n → Fin n → ℚ) : Fin n → Fin n → ℚ :=
  fun i j => (if i = j then degree_entry A i else 0) - A i j

/-- Modelled from the spec: the pruning constant `EPSILON` is defined in
graph.h, which is not under src/; the spec describes it as a small positive
constant around `10⁻¹⁰`. -/
def EPSILON : ℚ := 1 / 10 ^ 10

/-- A constructed Graph.  The embedding keeps the state the claims are
about: the owned adjacency matrix, which the class never mutates after
construction. -/
structure GraphQ (n : ℕ) where
  adj : Fin n → Fin n → ℚ

/-- Embedding of `stag::isSymmetric` as used by `Graph::self_test_`. -/
def is_symmetric {n : ℕ} (M : Fin n → Fin n → ℚ) : Prop :=
  ∀ i j, M i j = M j i

instance is_symmetric_dec {n : ℕ} (M : Fin n → Fin n → ℚ) :
    Decidable (is_symmetric M) :=
  decidable_of_iff (∀ i j, M i j = M j i) Iff.rfl

/-- Embedding of the Graph constructor taking a matrix: the adjacency is
built by `adjacency_from_adj_or_lap`, then `self_test_` throws
`std::domain_error` when the adjacency is not symmetric.  A throwing C++
constructor leaves no object behind, which the `Except` return models. -/
def graph_from_matrix {n : ℕ} (M : Fin n → Fin n → ℚ) :
    Except StagError (GraphQ n) :=
  if is_symmetric (adjacency_from_adj_or_lap EPSILON M) then
    .ok ⟨adjacency_from_adj_or_lap EPSILON M⟩
  else .error .domainError

/-- Whether a construction attempt produced a Graph. -/
def construction_succeeds {n : ℕ} (r : Except StagError (GraphQ n)) : Bool :=
  match r with
  | .ok _ => true
  | .error _ => false

/-- Pruning a non-negative value that is either zero or above the threshold
leaves it unchanged. -/
theorem prune_keeps {eps x : ℚ} (heps : 0 ≤ eps) (hw : x ≠ 0 → eps < x) :
    (if eps < x then x else 0) = x := by
  by_cases h : x = 0
  · subst h
    have hlt : ¬ eps < 0 := not_lt.mpr heps
    simp [hlt]
  · rw [if_pos (hw h)]

/-- Reconstructing the adjacency from the combinatorial Laplacian of a
non-negative matrix whose non-zero entries all exceed the prune epsilon
returns exactly that matrix. -/
theorem adjacency_of_laplacian {n : ℕ} (A : Fin n → Fin n → ℚ)
    (hnn : ∀ i j, 0 ≤ A i j)
    (hw : ∀ i j, A i j ≠ 0 → EPSILON < A i j) :
    adjacency_from_adj_or_lap EPSILON (laplacian A) = A := by
  have heps : (0 : ℚ) ≤ EPSILON := by norm_num [EPSILON]
  have hpre : pre_adjacency (laplacian A) = A := by
    by_cases hneg : found_negative_value (laplacian A)
    · funext i j
      unfold pre_adjacency
      rw [if_pos hneg]
      unfold lap_to_adj
      by_cases hij : i = j
      · subst hij
        rw [if_pos rfl]
        unfold row_sum laplacian
        rw [Finset.sum_sub_distrib, Finset.sum_ite_eq]
        simp only [Finset.mem_univ, if_pos]
        unfold degree_entry row_sum
        ring
      · rw [if_neg hij]
        simp [laplacian, hij]
    · unfold found_negative_value at hneg
      push_neg at hneg
      have hoff : ∀ a b, a ≠ b → A a b = 0 := by
        intro a b hab
        have h1 := hneg a b
        have h2 : laplacian A a b = -A a b := by simp [laplacian, hab]
        rw [h2] at h1
        have h3 := hnn a b
        linarith
      funext i j
      unfold pre_adjacency
      rw [if_neg ?hne]
      case hne =>
        unfold found_negative_value
        push_neg
        exact hneg
      by_cases hij : i = j
      · subst hij
        have hsum : row_sum A i = A i i := by
          unfold row_sum
          rw [Finset.sum_eq_single i]
          · intro b _ hb
            exact hoff i b (Ne.symm hb)
          · intro h
            exact absurd (Finset.mem_univ i) h
        unfold laplacian
        rw [if_pos rfl]
        unfold degree_entry
        rw [hsum]
        ring
      · simp only [laplacian, if_neg hij]
        rw [hoff i j hij]
        ring
  funext i j
  unfold adjacency_from_adj_or_lap
  rw [hpre]
  exact prune_keeps heps (hw i j)

/-- C4: for every graph whose adjacency matrix `A` is symmetric,
non-negative, and has every non-zero entry (edge or self-loop weight)
strictly above the prune epsilon, constructing a Graph from the
combinatorial Laplacian `L = D - A` succeeds and reconstructs exactly the
adjacency `A`. -/
theorem C4_laplacian_round_trip {n : ℕ} (A : Fin n → Fin n → ℚ)
    (hsymm : ∀ i j, A i j = A j i)
    (hnn : ∀ i j, 0 ≤ A i j)
    (hw : ∀ i j, A i j ≠ 0 → EPSILON < A i j) :
    graph_from_matrix (laplacian A) = .ok ⟨A⟩ := by
  have hadj := adjacency_of_laplacian A hnn hw
  unfold graph_from_matrix
  rw [hadj, if_pos (show is_symmetric A from hsymm)]

/-- A 2-vertex graph with a single edge of weight 1, used as witness data. -/
def pair_graph_adj : Fin 2 → Fin 2 → ℚ := fun i j => if i = j then 0 else 1

/-- Witness for C4 at the single-edge graph on two vertices. -/
theorem C4_witness :
    (∀ i j, pair_graph_adj i j = pair_graph_adj j i) ∧
    (∀ i j, (0 : ℚ) ≤ pair_graph_adj i j) ∧
    (∀ i j, pair_graph_adj i j ≠ 0 → EPSILON < pair_graph_adj i j) ∧
    graph_from_matrix (laplacian pair_graph_adj) = .ok ⟨pair_graph_adj⟩ := by
  have h1 : ∀ i j, pair_graph_adj i j = pair_graph_adj j i := by
    intro i j
    fin_cases i <;> fin_cases j <;> rfl
  have h2 : ∀ i j, (0 : ℚ) ≤ pair_graph_adj i j := by
    intro i j
    unfold pair_graph_adj
    split <;> norm_num
  have h3 : ∀ i j, pair_graph_adj i j ≠ 0 → EPSILON < pair_graph_adj i j := by
    intro i j h
    unfold pair_graph_adj at h ⊢
    by_cases hij : i = j
    · rw [if_pos hij] at h
      exact absurd rfl h
    · rw [if_neg hij]
      norm_num [EPSILON]
  exact ⟨h1, h2, h3, C4_laplacian_round_trip pair_graph_adj h1 h2 h3⟩

/-- An asymmetric 2×2 input matrix whose only non-zero entry lies strictly
below the prune epsilon. -/
def tiny_asym : Fin 2 → Fin 2 → ℚ :=
  fun i j => if i = 0 ∧ j = 1 then 1 / 10 ^ 11 else 0

/-- C9 counterexample: the input matrix `tiny_asym` is not symmetric, yet
Graph construction succeeds, because the pruning step removes the tiny
asymmetric entry before `self_test_` checks symmetry.  The claim, which
demands a domain failure for every asymmetric adjacency input, is false. -/
theorem C9_counterexample :
    tiny_asym 0 1 ≠ tiny_asym 1 0 ∧
    construction_succeeds (graph_from_matrix tiny_asym) = true := by
  have hneg : ¬ found_negative_value tiny_asym := by
    unfold found_negative_value
    push_neg
    intro i j
    unfold tiny_asym
    split <;> norm_num
  have hpre : pre_adjacency tiny_asym = tiny_asym := by
    unfold pre_adjacency
    rw [if_neg hneg]
  have hadj : adjacency_from_adj_or_lap EPSILON tiny_asym = fun _ _ => (0 : ℚ) := by
    funext i j
    unfold adjacency_from_adj_or_lap
    rw [hpre]
    have hv : tiny_asym i j = 1 / 10 ^ 11 ∨ tiny_asym i j = 0 := by
      unfold tiny_asym
      split
      · exact Or.inl rfl
      · exact Or.inr rfl
    rcases hv with hv | hv <;> rw [hv]
    · rw [if_neg (by norm_num [EPSILON])]
    · rw [if_neg (by norm_num [EPSILON])]
  constructor
  · norm_num [tiny_asym]
  · unfold construction_succeeds graph_from_matrix
    rw [hadj, if_pos (show is_symmetric (fun _ _ => (0 : ℚ)) from fun _ _ => rfl)]

/-- C9 (amended): Graph construction from an input matrix fails with a
domain error exactly when the adjacency obtained after pruning is not
symmetric — asymmetry lying entirely below the prune epsilon is tolerated —
and construction from a symmetric input always succeeds; the `Except`
result carries no graph on failure, so no partially-initialised Graph is
observable. -/
theorem C9_construction_symmetry {n : ℕ} (M : Fin n → Fin n → ℚ) :
    (graph_from_matrix M = .error .domainError ↔
      ¬ is_symmetric (adjacency_from_adj_or_lap EPSILON M)) ∧
    ((∀ i j, M i j = M j i) →
      construction_succeeds (graph_from_matrix M) = true) := by
  constructor
  · by_cases h : is_symmetric (adjacency_from_adj_or_lap EPSILON M)
    · unfold graph_from_matrix
      rw [if_pos h]
      simp [h]
    · unfold graph_from_matrix
      rw [if_neg h]
      simp [h]
  · intro hM
    have hsym : is_symmetric (adjacency_from_adj_or_lap EPSILON M) := by
      intro i j
      unfold adjacency_from_adj_or_lap
      have hpre : pre_adjacency M i j = pre_adjacency M j i := by
        by_cases hneg : found_negative_value M
        · simp only [pre_adjacency, if_pos hneg]
          unfold lap_to_adj
          by_cases hij : i = j
          · subst hij
            rfl
          · rw [if_neg hij, if_neg (fun h => hij h.symm)]
            rw [hM i j]
        · simp only [pre_adjacency, if_neg hneg]
          exact hM i j
      rw [hpre]
    unfold construction_succeeds graph_from_matrix
    rw [if_pos hsym]

/-- Witness for the amended C9 at the symmetric single-edge graph. -/
theorem C9_witness :
    construction_succeeds (graph_from_matrix pair_graph_adj) = true :=
  (C9_construction_symmetry pair_graph_adj).2 (by
    intro i j
    fin_cases i <;> fin_cases j <;> rfl)

/-! ## CSR sparse-matrix data (graph.cpp works on the raw CSR arrays) -/

/-- Raw compressed-sparse-row data: row start offsets, column indices and
values, as consumed and produced by the graph code. -/
structure CSRMat where
  rowStarts : List ℕ
  cols : List ℕ
  vals : List ℚ
  deriving DecidableEq

/-- The stored `(column, value)` pairs of row `v`: the positions
`[rowStarts[v], rowStarts[v+1])` of the parallel index and value arrays. -/
def row_slice (g : CSRMat) (v : ℕ) : List (ℕ × ℚ) :=
  ((g.cols.zip g.vals).drop (g.rowStarts.getD v 0)).take
    (g.rowStarts.getD (v + 1) 0 - g.rowStarts.getD v 0)

/-- Embedding of `adjacency_matrix_.coeff(v, u)` on CSR data: the stored
value at `(v, u)`, or zero when no entry is stored there. -/
def coeff (g : CSRMat) (v u : ℕ) : ℚ :=
  match (row_slice g v).find? (fun p => p.1 == u) with
  | some p => p.2
  | none => 0

/-- Embedding of `Graph::degree_unweighted`: the number of stored entries
of row `v` (`nextRowStart - rowStart`), plus one when the vertex has a
self-loop. -/
def degree_unweighted (g : CSRMat) (v : ℕ) : ℕ :=
  (g.rowStarts.getD (v + 1) 0 - g.rowStarts.getD v 0) +
    (if coeff g v v ≠ 0 then 1 else 0)

/-- Embedding of `Graph::neighbors`: starting at the row start of `v`, the
loop reads `degree_unweighted(v) - self_loop` stored entries and pushes an
edge `{v, column, weight}` for every entry whose weight is non-zero. -/
def neighbors (g : CSRMat) (v : ℕ) : List (ℕ × ℕ × ℚ) :=
  (((g.cols.zip g.vals).drop (g.rowStarts.getD v 0)).take
      (degree_unweighted g v - (if coeff g v v ≠ 0 then 1 else 0))).filterMap
    (fun p => if p.2 ≠ 0 then some (v, p.1, p.2) else none)

/-- The neighbour list as the claim states it: edges for the off-diagonal
non-zero entries of row `v`, the self-loop entry excluded. -/
def neighbors_claim (g : CSRMat) (v : ℕ) : List (ℕ × ℕ × ℚ) :=
  (row_slice g v).filterMap
    (fun p => if p.1 ≠ v ∧ p.2 ≠ 0 then some (v, p.1, p.2) else none)

/-- CSR data of the 2-vertex graph with adjacency `[[1, 1], [1, 0]]`: a
self-loop of weight 1 at vertex 0 and an edge `{0, 1}` of weight 1. -/
def loop_graph : CSRMat := ⟨[0, 2, 3], [0, 1, 0], [1, 1, 1]⟩

/-- C5 counterexample: on the graph with a self-loop at vertex 0,
`neighbors(0)` returns the self-loop edge `{0, 0, 1}` as well as the edge
`{0, 1, 1}`: the loop bound `degree_unweighted(v) - self_loop` equals the
stored entry count of the row (since `degree_unweighted` already counts the
self-loop twice), so the diagonal entry is visited and pushed.  The claim
says the self-loop never appears in the returned list. -/
theorem C5_counterexample :
    neighbors loop_graph 0 = [(0, 0, 1), (0, 1, 1)] ∧
    neighbors_claim loop_graph 0 = [(0, 1, 1)] ∧
    neighbors loop_graph 0 ≠ neighbors_claim loop_graph 0 := by
  have h1 : neighbors loop_graph 0 = [(0, 0, 1), (0, 1, 1)] := rfl
  have h2 : neighbors_claim loop_graph 0 = [(0, 1, 1)] := rfl
  refine ⟨h1, h2, ?_⟩
  rw [h1, h2]
  simp

/-! ## Disjoint union (Graph::disjoint_union) -/

/-- Embedding of the vertex count read off CSR data: `rowStarts` has one
entry per row plus one, so the matrix has `rowStarts.length - 1` rows. -/
def number_of_vertices (g : CSRMat) : ℕ := g.rowStarts.length - 1

/-- Embedding of `Graph::disjoint_union`: values and inner indices of the
two graphs are concatenated (the second graph's column indices shifted by
the first graph's vertex count); the second graph's row starts are shifted
by the first graph's last row start and appended, but only those row starts
that are non-zero are kept (`if (other_start != 0)`). -/
def disjoint_union (g other : CSRMat) : CSRMat where
  rowStarts := g.rowStarts ++
    ((other.rowStarts.filter (fun s => s != 0)).map
      (fun s => s + (g.rowStarts.getLast?.getD 0)))
  cols := g.cols ++ other.cols.map (fun c => c + number_of_vertices g)
  vals := g.vals ++ other.vals

/-- CSR data of the 2-vertex single-edge graph. -/
def pair_csr : CSRMat := ⟨[0, 1, 2], [1, 0], [1, 1]⟩

/-- CSR data of a 3-vertex graph whose vertex 0 is isolated, with a single
edge `{1, 2}` of weight 1. -/
def isolated_first_csr : CSRMat := ⟨[0, 0, 1, 2], [2, 1], [1, 1]⟩

/-- C7: taking the disjoint union of the 2-vertex single-edge graph with a
3-vertex graph whose vertex 0 is isolated, the `!= 0` test drops the second
graph's empty leading row, so the result has only 4 outer starts beyond
zero — a 4-vertex matrix instead of the claimed `2 + 3 = 5` vertices — and
its column indices still reference vertex 4, which is out of range.  The
claimed block-diagonal adjacency on `n + n'` vertices is not produced. -/
theorem C7_disjoint_union_eval :
    number_of_vertices pair_csr = 2 ∧
    number_of_vertices isolated_first_csr = 3 ∧
    (disjoint_union pair_csr isolated_first_csr).rowStarts = [0, 1, 2, 3, 4] ∧
    (disjoint_union pair_csr isolated_first_csr).cols = [1, 0, 4, 3] ∧
    number_of_vertices (disjoint_union pair_csr isolated_first_csr) = 4 ∧
    number_of_vertices (disjoint_union pair_csr isolated_first_csr) ≠
      number_of_vertices pair_csr + number_of_vertices isolated_first_csr := by
  refine ⟨rfl, rfl, ?_, ?_, ?_, ?_⟩ <;> first | rfl | decide

/-! ## C5 amended: `neighbors` on the canonical CSR encoding of a matrix -/

/-- The stored `(column, value)` pairs of row `v` of a dense matrix in
compressed form: its non-zero entries in column order, as Eigen stores a
row after `makeCompressed`/`prune`. -/
def row_entries {n : ℕ} (A : Fin n → Fin n → ℚ) (v : Fin n) : List (ℕ × ℚ) :=
  (List.finRange n).filterMap
    (fun u => if A v u ≠ 0 then some (u.val, A v u) else none)

/-- All stored entries of the compressed matrix, row by row. -/
def entries_list {n : ℕ} (A : Fin n → Fin n → ℚ) : List (ℕ × ℚ) :=
  ((List.finRange n).map (row_entries A)).flatten

/-- The canonical CSR encoding of a dense matrix: only non-zero entries are
stored, rows in order, and the row starts accumulate the row lengths. -/
def csr_of_matrix {n : ℕ} (A : Fin n → Fin n → ℚ) : CSRMat where
  rowStarts := (List.range (n + 1)).map
    (fun v => ((((List.finRange n).map (row_entries A)).take v).map List.length).sum)
  cols := (entries_list A).map Prod.fst
  vals := (entries_list A).map Prod.snd

/-- Edges for all non-zero entries of row `v` of a dense matrix, any
self-loop included. -/
def row_edges {n : ℕ} (A : Fin n → Fin n → ℚ) (v : Fin n) : List (ℕ × ℕ × ℚ) :=
  (List.finRange n).filterMap
    (fun u => if A v u ≠ 0 then some (v.val, u.val, A v u) else none)

/-- Slicing the concatenation of a list of lists at the accumulated lengths
recovers the corresponding block. -/
theorem flatten_drop_take {α : Type} (L : List (List α)) (v : ℕ) (hv : v < L.length) :
    ((L.flatten).drop (((L.take v).map List.length).sum)).take (L.getD v []).length
      = L.getD v [] := by
  induction L generalizing v with
  | nil => exact absurd hv (by simp)
  | cons x L ih =>
    cases v with
    | zero =>
      simp only [List.take_zero, List.map_nil, List.sum_nil, List.drop_zero,
        List.getD_cons_zero, List.flatten_cons]
      exact List.take_left x L.flatten
    | succ v =>
      have hv2 : v < L.length := by simpa using hv
      simp only [List.take_succ_cons, List.map_cons, List.sum_cons,
        List.getD_cons_succ, List.flatten_cons]
      rw [← List.drop_drop, List.drop_left]
      exact ih v hv2

/-- The row starts of the canonical CSR encoding are the accumulated row
lengths. -/
theorem csr_of_matrix_rowStarts {n : ℕ} (A : Fin n → Fin n → ℚ) (v : ℕ)
    (hv : v < n + 1) :
    (csr_of_matrix A).rowStarts.getD v 0
      = ((((List.finRange n).map (row_entries A)).take v).map List.length).sum := by
  unfold csr_of_matrix
  simp [List.getD_eq_getElem?_getD, List.getElem?_map, List.getElem?_range, hv]

/-- Zipping the column and value arrays of the canonical CSR encoding
recovers the stored entry list. -/
theorem csr_of_matrix_zip {n : ℕ} (A : Fin n → Fin n → ℚ) :
    (csr_of_matrix A).cols.zip (csr_of_matrix A).vals = entries_list A := by
  unfold csr_of_matrix
  exact (List.zip_of_prod rfl rfl).symm

/-- C5 (amended): on the CSR encoding of an adjacency matrix, `neighbors(v)`
returns exactly the edges `{v, u, w}` for all non-zero entries of row `v`,
a self-loop entry `{v, v, w}` included: the loop bound
`degree_unweighted(v) - self_loop` equals the stored entry count of the row
(`degree_unweighted` counts the self-loop twice), so the whole row is
visited, the diagonal entry along with the rest. -/
theorem C5_neighbors_all_entries {n : ℕ} (A : Fin n → Fin n → ℚ) (v : Fin n) :
    neighbors (csr_of_matrix A) v.val = row_edges A v := by
  have hv1 : v.val < n + 1 := Nat.lt_succ_of_lt v.isLt
  have hv2 : v.val + 1 < n + 1 := Nat.succ_lt_succ v.isLt
  have hs := csr_of_matrix_rowStarts A v.val hv1
  have he := csr_of_matrix_rowStarts A (v.val + 1) hv2
  have hgd : ((List.finRange n).map (row_entries A)).getD v.val ([] : List (ℕ × ℚ))
      = row_entries A v := by
    simp [List.getD_eq_getElem?_getD, List.getElem?_map]
  have hlen : ((((List.finRange n).map (row_entries A)).take (v.val + 1)).map
        List.length).sum
      = ((((List.finRange n).map (row_entries A)).take v.val).map List.length).sum
          + (row_entries A v).length := by
    rw [List.take_succ]
    simp [List.getElem?_map]
  unfold neighbors degree_unweighted
  rw [Nat.add_sub_cancel, csr_of_matrix_zip, hs, he, hlen, Nat.add_sub_cancel_left]
  have hslice := flatten_drop_take ((List.finRange n).map (row_entries A)) v.val
    (by simp [v.isLt])
  rw [hgd] at hslice
  unfold entries_list
  rw [hslice]
  unfold row_entries row_edges
  rw [List.filterMap_filterMap]
  congr 1
  funext u
  by_cases h : A v u = 0 <;> simp [h]

/-! ## C10: the adjacency invariant of constructed graphs -/

/-- Embedding of the Graph constructor taking CSR vectors: the three
vectors are viewed as a sparse matrix (`sprsMatFromVectors`) and
construction proceeds exactly as from a matrix. -/
def graph_from_vectors (n : ℕ) (g : CSRMat) : Except StagError (GraphQ n) :=
  graph_from_matrix (fun i j => coeff g i.val j.val)

/-- Every entry surviving `adjacency_from_adj_or_lap` is either zero or
strictly above the prune threshold. -/
theorem adjacency_entry_pruned {n : ℕ} (eps : ℚ) (M : Fin n → Fin n → ℚ)
    (i j : Fin n) (h : adjacency_from_adj_or_lap eps M i j ≠ 0) :
    eps < adjacency_from_adj_or_lap eps M i j := by
  unfold adjacency_from_adj_or_lap at h ⊢
  by_cases hc : eps < pre_adjacency M i j
  · rw [if_pos hc]
    exact hc
  · rw [if_neg hc] at h
    exact absurd rfl h

/-- C10: every Graph successfully produced by a public constructor — from a
matrix or from CSR vectors — has all non-zero adjacency entries strictly
greater than the prune epsilon; in particular no stored entry is negative
or zero, whatever the input (adjacency or Laplacian) was.  The adjacency
field is immutable after construction, so every derived matrix later reads
these same entries. -/
theorem C10_adjacency_invariant {n : ℕ} :
    (∀ (M : Fin n → Fin n → ℚ) (G : GraphQ n), graph_from_matrix M = .ok G →
      ∀ i j, G.adj i j ≠ 0 → EPSILON < G.adj i j) ∧
    (∀ (g : CSRMat) (G : GraphQ n), graph_from_vectors n g = .ok G →
      ∀ i j, G.adj i j ≠ 0 → EPSILON < G.adj i j) := by
  have key : ∀ (M : Fin n → Fin n → ℚ) (G : GraphQ n),
      graph_from_matrix M = .ok G →
      ∀ i j, G.adj i j ≠ 0 → EPSILON < G.adj i j := by
    intro M G h i j hne
    have hG : G.adj = adjacency_from_adj_or_lap EPSILON M := by
      unfold graph_from_matrix at h
      split at h
      · injection h with h2
        rw [← h2]
      · exact absurd h (by simp)
    rw [hG] at hne ⊢
    exact adjacency_entry_pruned EPSILON M i j hne
  exact ⟨key, fun g => key (fun i j => coeff g i.val j.val)⟩

/-- The single-edge graph passes through `adjacency_from_adj_or_lap`
unchanged: it has no negative entry and both edge weights exceed the prune
epsilon. -/
theorem pair_graph_pruned :
    adjacency_from_adj_or_lap EPSILON pair_graph_adj = pair_graph_adj := by
  have hneg : ¬ found_negative_value pair_graph_adj := by
    unfold found_negative_value
    push_neg
    intro a b
    unfold pair_graph_adj
    split <;> norm_num
  have hpre : pre_adjacency pair_graph_adj = pair_graph_adj := by
    unfold pre_adjacency
    rw [if_neg hneg]
  funext i j
  unfold adjacency_from_adj_or_lap
  rw [hpre]
  unfold pair_graph_adj
  by_cases hij : i = j
  · rw [if_pos hij, if_neg (by norm_num [EPSILON])]
  · rw [if_neg hij, if_pos (by norm_num [EPSILON])]

/-- The symmetric single-edge graph constructs successfully, yielding its
own adjacency. -/
theorem pair_graph_constructs :
    graph_from_matrix pair_graph_adj = .ok ⟨pair_graph_adj⟩ := by
  unfold graph_from_matrix
  rw [pair_graph_pruned,
    if_pos (show is_symmetric pair_graph_adj by
      intro i j
      fin_cases i <;> fin_cases j <;> rfl)]

/-- Witness for C10 at the single-edge graph and its entry `(0, 1)`. -/
theorem C10_witness :
    graph_from_matrix pair_graph_adj = .ok ⟨pair_graph_adj⟩ ∧
    pair_graph_adj 0 1 ≠ 0 ∧
    EPSILON < (GraphQ.mk pair_graph_adj).adj 0 1 := by
  have hne : pair_graph_adj 0 1 ≠ 0 := by norm_num [pair_graph_adj]
  exact ⟨pair_graph_constructs, hne,
    C10_adjacency_invariant.1 pair_graph_adj ⟨pair_graph_adj⟩
      pair_graph_constructs 0 1 hne⟩

/-! ## Exact Gaussian KDE (ExactGaussianKDE) -/

/-- A dense query matrix: one query point per row, with `cols` columns (the
data dimension). -/
structure DenseMatQ where
  rows : List (List ℚ)
  cols : ℕ

/-- Embedding of `squared_distance`: the sum of squared coordinate
differences. -/
def squared_distance (u v : List ℚ) : ℚ :=
  ((List.zipWith (fun a b => a - b) u v).map (fun x => x ^ 2)).sum

/-- Embedding of `stag::gaussian_kernel`: `exp(-(a * c))`.  The
exponential from libm is a parameter `expf` of the embedding. -/
def gaussian_kernel (expf : ℚ → ℚ) (a c : ℚ) : ℚ := expf (-(a * c))

/-- Embedding of `gaussian_kde_exact`: the kernel summed over all data
points, divided by the data size. -/
def gaussian_kde_exact (expf : ℚ → ℚ) (a : ℚ) (data : List (List ℚ))
    (query : List ℚ) : ℚ :=
  (data.map (fun x => gaussian_kernel expf a (squared_distance query x))).sum
    / (data.length : ℚ)

/-- Writing into a fixed-size `std::vector` at index `i`; an out-of-range
write is undefined behaviour, modelled as failure. -/
def vector_write (l : List ℚ) (i : ℕ) (x : ℚ) : Option (List ℚ) :=
  if i < l.length then some (l.set i x) else none

/-- Embedding of `ExactGaussianKDE::query`: the results vector is allocated
with `query->cols()` entries (`std::vector<StagReal> results(query->cols())`)
and entry `i` is then written with the exact KDE value of query row `i` for
every row index `i` — both the serial path and the chunked thread-pool path
write exactly these values at these indices. -/
def exact_kde_query (expf : ℚ → ℚ) (a : ℚ) (data : List (List ℚ))
    (q : DenseMatQ) : Option (List ℚ) :=
  (List.range q.rows.length).foldl
    (fun acc i => acc.bind
      (fun res =>
        vector_write res i (gaussian_kde_exact expf a data (q.rows.getD i []))))
    (some (List.replicate q.cols (0 : ℚ)))

/-- C6: `ExactGaussianKDE::query` sizes its result vector by
`query->cols()` instead of the number of query rows: for a single query
point of dimension 2 over a one-point data set, the returned vector has two
entries — the correctly computed value `expf(-(a·25))` followed by a
spurious zero — instead of the claimed one entry per query row.  This holds
for every kernel parameter `a` and every exponential function. -/
theorem C6_result_size_eval :
    ∀ (expf : ℚ → ℚ) (a : ℚ),
      exact_kde_query expf a [[0, 0]] ⟨[[3, 4]], 2⟩
        = some [gaussian_kde_exact expf a [[0, 0]] [3, 4], 0] ∧
      (exact_kde_query expf a [[0, 0]] ⟨[[3, 4]], 2⟩).map List.length = some 2 ∧
      (DenseMatQ.mk [[3, 4]] 2).rows.length = 1 ∧
      gaussian_kde_exact expf a [[0, 0]] [3, 4] = expf (-(a * 25)) := by
  intro expf a
  have hsq : squared_distance [3, 4] [0, 0] = 25 := by
    simp [squared_distance]
    norm_num
  have hval : gaussian_kde_exact expf a [[0, 0]] [3, 4] = expf (-(a * 25)) := by
    simp [gaussian_kde_exact, gaussian_kernel, hsq]
  exact ⟨rfl, rfl, rfl, hval⟩

/-! ## Spectrum engine argument checking -/

/-- Modelled from the spec: the argument validation of
`compute_eigensystem` and `compute_eigenvalues`.  The spectrum
implementation is not under src/ (only its tests are); §4.B of the spec
gives the constraint `1 ≤ k ≤ n − 1`, with `k ≤ 0` or `k ≥ n` rejected by
an invalid-argument failure, as SpectrumTest.ArgumentChecking expects. -/
def eigensystem_arg_check (n k : ℤ) : Except StagError Unit :=
  if k ≤ 0 then .error .invalidArgument
  else if n ≤ k then .error .invalidArgument
  else .ok ()

/-- C8: for every graph size `n`, every call with `k ≤ 0` or `k ≥ n`
(including `k = n` and `k = n + 1`) fails with invalid-argument, and every
`k` with `1 ≤ k ≤ n - 1` passes the argument check. -/
theorem C8_eigensystem_k_range (n k : ℤ) :
    ((k ≤ 0 ∨ n ≤ k) → eigensystem_arg_check n k = .error .invalidArgument) ∧
    (1 ≤ k → k ≤ n - 1 → eigensystem_arg_check n k = .ok ()) := by
  constructor
  · intro h
    unfold eigensystem_arg_check
    rcases h with h | h
    · rw [if_pos h]
    · by_cases h0 : k ≤ 0
      · rw [if_pos h0]
      · rw [if_neg h0, if_pos h]
  · intro h1 h2
    unfold eigensystem_arg_check
    rw [if_neg (by omega), if_neg (by omega)]

/-- Witness for C8 at `n = 10`: the values `k = -1, 0, 10, 11` are all
rejected with invalid-argument and `k = 3` passes the check. -/
theorem C8_witness :
    eigensystem_arg_check 10 (-1) = .error .invalidArgument ∧
    eigensystem_arg_check 10 0 = .error .invalidArgument ∧
    eigensystem_arg_check 10 10 = .error .invalidArgument ∧
    eigensystem_arg_check 10 11 = .error .invalidArgument ∧
    eigensystem_arg_check 10 3 = .ok () :=
  ⟨(C8_eigensystem_k_range 10 (-1)).1 (Or.inl (by norm_num)),
   (C8_eigensystem_k_range 10 0).1 (Or.inl le_rfl),
   (C8_eigensystem_k_range 10 10).1 (Or.inr le_rfl),
   (C8_eigensystem_k_range 10 11).1 (Or.inr (by norm_num)),
   (C8_eigensystem_k_range 10 3).2 (by norm_num) (by norm_num)⟩
